import Mathlib

/-!
Verification of the latent-profile-analysis pipeline (`3_latent_profile.py`).

Shallow embedding of the statistical core of the script: the entropy
estimator (`compute_gmm_entropy`), the likelihood decomposer
(`compute_component_loglikelihoods`, `compute_total_loglikelihood`,
`compute_component_contributions`), the model-selection sweep
(`finetune_model`), the finalizer (`build_model_and_fit`) and the
preprocessing step (standardization).

Reals in the script are IEEE doubles; we embed them as `ℝ`, except in the
entropy estimator where the script can produce `-inf` (via `np.log(0)`),
which we model with `EReal` so that the infinity propagation of the
floating-point code is captured faithfully.
-/

open scoped BigOperators

noncomputable section

open scoped Classical

/-- A fitted Gaussian mixture model with `K` components over `D` features,
as exposed by the fitted `GaussianMixture` object: `weights_`, `means_`,
`covariances_`. -/
structure GMM (K D : ℕ) where
  weights : Fin K → ℝ
  means : Fin K → Fin D → ℝ
  covariances : Fin K → Matrix (Fin D) (Fin D) ℝ

/-- Model of `scipy.stats.entropy(pk)`: it normalizes `pk` to a probability vector and
returns its Shannon entropy with natural log; the `0 * log 0 = 0` convention
of scipy's `xlogy` is matched by Mathlib's `Real.log 0 = 0`. -/
def scipy_entropy {n : ℕ} (pk : Fin n → ℝ) : ℝ :=
  -(∑ i, (pk i / ∑ j, pk j) * Real.log (pk i / ∑ j, pk j))

/-- Model of `np.log` on the nonnegative reals that arise in the script: `np.log 0`
is `-inf`, modelled as `⊥ : EReal`; on positive input it is the real log. -/
def nplog (x : ℝ) : EReal :=
  if x = 0 then ⊥ else ((Real.log x : ℝ) : EReal)

/-- Embedding of `compute_gmm_entropy` (source lines 37-62): approximate differential
entropy of the mixture,
`entropy(weights) + 0.5 * Σ_k w_k * (log(det Σ_k) + D * (1 + log(2π)))`,
valued in `EReal` because `np.log(det)` is `-inf` for a singular covariance. -/
def compute_gmm_entropy {K D : ℕ} (M : GMM K D) : EReal :=
  let n_features : ℕ := D
  let mixing_entropy : ℝ := scipy_entropy M.weights
  let component_entropies : EReal :=
    (∑ k : Fin K, (M.weights k : EReal) *
      (nplog (M.covariances k).det +
        (((n_features : ℝ) * (1 + Real.log (2 * Real.pi)) : ℝ) : EReal)))
  (mixing_entropy : EReal) + (((1 / 2 : ℝ)) : EReal) * component_entropies

/-- The quadratic form `(x-μ)ᵀ Σ⁻¹ (x-μ)` of the multivariate normal. -/
def mahalanobisSq {D : ℕ} (mean : Fin D → ℝ) (cov : Matrix (Fin D) (Fin D) ℝ)
    (x : Fin D → ℝ) : ℝ :=
  Matrix.dotProduct (x - mean) (cov⁻¹.mulVec (x - mean))

/-- Model of `scipy.stats.multivariate_normal.logpdf(x, mean, cov)` for an invertible
covariance: `-(1/2) * (D * log(2π) + log(det cov) + (x-μ)ᵀ cov⁻¹ (x-μ))`. -/
def multivariate_normal_logpdf {D : ℕ} (mean : Fin D → ℝ)
    (cov : Matrix (Fin D) (Fin D) ℝ) (x : Fin D → ℝ) : ℝ :=
  -(1 / 2) * ((D : ℝ) * Real.log (2 * Real.pi) + Real.log cov.det
    + mahalanobisSq mean cov x)

/-- The multivariate normal density in its textbook form, written from the
spec's words ("log-density of observation i under component k's Gaussian"):
`exp(-(1/2)(x-μ)ᵀΣ⁻¹(x-μ)) / sqrt((2π)^D * det Σ)`. -/
def gaussianPdf {D : ℕ} (mean : Fin D → ℝ) (cov : Matrix (Fin D) (Fin D) ℝ)
    (x : Fin D → ℝ) : ℝ :=
  Real.exp (-(1 / 2) * mahalanobisSq mean cov x) /
    Real.sqrt ((2 * Real.pi) ^ D * cov.det)

/-- Embedding of `compute_component_loglikelihoods` (source lines 64-76): the `N×K`
matrix with entry `(i,k) = log(weights_[k]) + logpdf(X[i]; means_[k],
covariances_[k])`. -/
def compute_component_loglikelihoods {K D N : ℕ} (gmm : GMM K D)
    (X : Fin N → Fin D → ℝ) : Fin N → Fin K → ℝ :=
  fun i k =>
    Real.log (gmm.weights k) +
      multivariate_normal_logpdf (gmm.means k) (gmm.covariances k) (X i)

/-- The row maximum used by `scipy.special.logsumexp`'s shift; `0` junk
value for an empty row (scipy would return `-inf`, a case never reached:
every mixture in the script has at least one component). -/
def npmax {n : ℕ} (a : Fin n → ℝ) : ℝ :=
  if h : 0 < n then Finset.univ.sup' ⟨⟨0, h⟩, Finset.mem_univ _⟩ a else 0

/-- Model of `scipy.special.logsumexp` on one row: shift by the row maximum, sum the
exponentials, take the log and shift back. -/
def logsumexp {n : ℕ} (a : Fin n → ℝ) : ℝ :=
  Real.log (∑ i, Real.exp (a i - npmax a)) + npmax a

/-- Embedding of `compute_total_loglikelihood` (source lines 78-80): row-wise
log-sum-exp of the per-component log-likelihood matrix. -/
def compute_total_loglikelihood {K D N : ℕ} (gmm : GMM K D)
    (X : Fin N → Fin D → ℝ) : Fin N → ℝ :=
  let log_probs := compute_component_loglikelihoods gmm X
  fun i => logsumexp (fun k => log_probs i k)

/-- Model of `GaussianMixture.predict_proba`: posterior responsibilities, computed
by sklearn as the softmax of the weighted log probabilities, i.e.
`exp(log_probs[i,k] - logsumexp(log_probs[i,:]))`. -/
def predict_proba {K D N : ℕ} (gmm : GMM K D) (X : Fin N → Fin D → ℝ) :
    Fin N → Fin K → ℝ :=
  let log_probs := compute_component_loglikelihoods gmm X
  fun i k => Real.exp (log_probs i k - logsumexp (fun j => log_probs i j))

/-- Embedding of `compute_component_contributions` (source lines 82-87): per-component
soft-assigned contributions `(responsibilities * log_probs).sum(axis=0)`
and the grand total `logsumexp(log_probs, axis=1).sum()`. -/
def compute_component_contributions {K D N : ℕ} (gmm : GMM K D)
    (X : Fin N → Fin D → ℝ) : (Fin K → ℝ) × ℝ :=
  let log_probs := compute_component_loglikelihoods gmm X
  let responsibilities := predict_proba gmm X
  let total_ll : ℝ := (∑ i, logsumexp (fun k => log_probs i k))
  let comp_ll : Fin K → ℝ := fun k => (∑ i, responsibilities i k * log_probs i k)
  (comp_ll, total_ll)

/-- One step of `np.argmax`: keep the current best index, replacing it only
when a strictly larger value appears (so the first maximum wins, as in
numpy). -/
def argmaxStep {n : ℕ} (v : Fin n → ℝ) (best : Option (Fin n)) (i : Fin n) :
    Option (Fin n) :=
  match best with
  | none => some i
  | some b => if v b < v i then some i else some b

/-- Model of `np.argmax` over a length-`n` vector: index of the first maximal entry,
as a natural number (junk value `0` for `n = 0`, where numpy raises). -/
def npArgmax {n : ℕ} (v : Fin n → ℝ) : ℕ :=
  (((List.finRange n).foldl (argmaxStep v) none).map Fin.val).getD 0

/-- Model of `GaussianMixture.predict`: arg-max over components of the weighted
log probabilities `log(w_k) + logpdf_k(x_i)`, per observation. -/
def predict {K D N : ℕ} (gmm : GMM K D) (X : Fin N → Fin D → ℝ) :
    Fin N → ℕ :=
  fun i => npArgmax (fun k => compute_component_loglikelihoods gmm X i k)

/-- What one successful `GaussianMixture(n_components=n, ...).fit(data)`
call yields for the sweep: the fitted model and its sklearn scores
`model.aic(data)` and `model.bic(data)` (external scoring, black box). -/
structure FittedAt (D : ℕ) (n : ℕ) where
  model : GMM n D
  aic : ℝ
  bic : ℝ

/-- The dictionary of lists returned by `finetune_model` (source lines
114-120); the `log-likelihood` key is spelled `loglikelihood`. -/
structure SweepResult where
  aic : List ℝ
  bic : List ℝ
  n_components : List ℕ
  loglikelihood : List ℝ
  entropy : List EReal

/-- The loop body of `finetune_model` over the remaining candidate counts:
a failing fit raises, aborting the whole loop (there is no handler in the
source); a successful fit appends that candidate's aic, bic, entropy,
total log-likelihood and component count to the accumulated lists. -/
def finetuneGo {D N : ℕ} {E : Type} (fit : (n : ℕ) → Except E (FittedAt D n))
    (data : Fin N → Fin D → ℝ) : List ℕ → SweepResult → Except E SweepResult
  | [], acc => .ok acc
  | n :: rest, acc =>
    match fit n with
    | .error e => .error e
    | .ok r =>
      let total_ll := (compute_component_contributions r.model data).2
      let model_entropy := compute_gmm_entropy r.model
      finetuneGo fit data rest
        { aic := acc.aic ++ [r.aic]
          bic := acc.bic ++ [r.bic]
          n_components := acc.n_components ++ [n]
          loglikelihood := acc.loglikelihood ++ [total_ll]
          entropy := acc.entropy ++ [model_entropy] }

/-- Embedding of `finetune_model` (source lines 89-120): for each `n` in
`range(1, 10)`, fit a fresh model on the data and record aic, bic,
entropy, total log-likelihood and the component count, in sweep order. -/
def finetune_model {D N : ℕ} {E : Type}
    (fit : (n : ℕ) → Except E (FittedAt D n)) (data : Fin N → Fin D → ℝ) :
    Except E SweepResult :=
  finetuneGo fit data (List.range' 1 9)
    { aic := [], bic := [], n_components := [], loglikelihood := [],
      entropy := [] }

/-- Embedding of `build_model_and_fit` (source lines 136-140): fit a final model at the
chosen component count and return the hard labels
(`final_model.predict(lpa_data)`, cast to integers) together with the
fitted model. -/
def build_model_and_fit {D N : ℕ} (fit : (n : ℕ) → GMM n D)
    (n_components : ℕ) (X : Fin N → Fin D → ℝ) :
    (Fin N → ℕ) × GMM n_components D :=
  let final_model := fit n_components
  let labels := predict final_model X
  (labels, final_model)

/-- Sample mean of column `j` of the raw data matrix. -/
def colMean {N D : ℕ} (X : Fin N → Fin D → ℝ) (j : Fin D) : ℝ :=
  (∑ i, X i j) / N

/-- Biased sample variance (ddof = 0, as `StandardScaler` uses) of column
`j`. -/
def colVar {N D : ℕ} (X : Fin N → Fin D → ℝ) (j : Fin D) : ℝ :=
  (∑ i, (X i j - colMean X j) ^ 2) / N

/-- Modelled from the spec: the preprocessor `scaler.fit_transform` (source
lines 20-21) whose implementation (`sklearn.preprocessing.StandardScaler`)
is not part of this repository. Per the spec's contract it returns the
matrix of identical shape with each column centred by its own mean and
divided by its own standard deviation, and fails (`none`) if any column
has zero variance. -/
def fit_transform {N D : ℕ} (X : Fin N → Fin D → ℝ) :
    Option (Fin N → Fin D → ℝ) :=
  if ∃ j, colVar X j = 0 then none
  else some fun i j => (X i j - colMean X j) / Real.sqrt (colVar X j)

/-! ## Helper lemmas -/

/-- The max-shifted log-sum-exp equals the plain `log` of the sum of
exponentials (the shift cancels exactly, for any shift value). -/
lemma logsumexp_eq {n : ℕ} (hn : 0 < n) (a : Fin n → ℝ) :
    logsumexp a = Real.log (∑ i, Real.exp (a i)) := by
  have hpos : 0 < (∑ i, Real.exp (a i)) :=
    Finset.sum_pos (fun i _ => Real.exp_pos _) ⟨⟨0, hn⟩, Finset.mem_univ _⟩
  unfold logsumexp
  have hshift : (∑ i, Real.exp (a i - npmax a))
      = (∑ i, Real.exp (a i)) / Real.exp (npmax a) := by
    rw [Finset.sum_div]
    exact Finset.sum_congr rfl fun i _ => by rw [Real.exp_sub]
  rw [hshift, Real.log_div (ne_of_gt hpos) (Real.exp_ne_zero _), Real.log_exp]
  ring

/-- Coercion `ℝ → EReal` commutes with finite sums. -/
lemma ereal_coe_sum {α : Type} (s : Finset α) (f : α → ℝ) :
    ((∑ x ∈ s, f x : ℝ) : EReal) = ∑ x ∈ s, ((f x : ℝ) : EReal) := by
  induction s using Finset.cons_induction with
  | empty => simp
  | cons a s ha ih => rw [Finset.sum_cons, Finset.sum_cons, EReal.coe_add, ih]

/-- A finite `EReal` sum with a `⊥` term is `⊥` (`⊥` absorbs in `EReal`
addition). -/
lemma ereal_sum_eq_bot {α : Type} (s : Finset α) (f : α → EReal) (a : α)
    (ha : a ∈ s) (hbot : f a = ⊥) : (∑ x ∈ s, f x) = ⊥ := by
  rw [← Finset.add_sum_erase s f ha, hbot, EReal.bot_add]

/-- For a covariance with positive determinant, the implemented log-pdf is
the log of the textbook Gaussian density. -/
lemma multivariate_normal_logpdf_eq_log {D : ℕ} (mean : Fin D → ℝ)
    (cov : Matrix (Fin D) (Fin D) ℝ) (x : Fin D → ℝ) (hdet : 0 < cov.det) :
    multivariate_normal_logpdf mean cov x = Real.log (gaussianPdf mean cov x) := by
  have h2pi : (0 : ℝ) < 2 * Real.pi := by positivity
  have hpow : (0 : ℝ) < (2 * Real.pi) ^ D := pow_pos h2pi D
  have harg : (0 : ℝ) < (2 * Real.pi) ^ D * cov.det := mul_pos hpow hdet
  unfold gaussianPdf multivariate_normal_logpdf
  rw [Real.log_div (Real.exp_ne_zero _) (ne_of_gt (Real.sqrt_pos.mpr harg)),
    Real.log_exp, Real.log_sqrt harg.le,
    Real.log_mul (ne_of_gt hpow) (ne_of_gt hdet), Real.log_pow]
  ring

/-- The textbook Gaussian density is positive when the determinant is. -/
lemma gaussianPdf_pos {D : ℕ} (mean : Fin D → ℝ)
    (cov : Matrix (Fin D) (Fin D) ℝ) (x : Fin D → ℝ) (hdet : 0 < cov.det) :
    0 < gaussianPdf mean cov x := by
  have h2pi : (0 : ℝ) < 2 * Real.pi := by positivity
  exact div_pos (Real.exp_pos _)
    (Real.sqrt_pos.mpr (mul_pos (pow_pos h2pi D) hdet))

/-- Exponentiating an entry of the per-component log-likelihood matrix
recovers the weighted component density `w_k * f_k(x_i)`. -/
lemma exp_component_loglikelihood {K D N : ℕ} (gmm : GMM K D)
    (X : Fin N → Fin D → ℝ) (i : Fin N) (k : Fin K)
    (hw : 0 < gmm.weights k) (hdet : 0 < (gmm.covariances k).det) :
    Real.exp (compute_component_loglikelihoods gmm X i k) =
      gmm.weights k * gaussianPdf (gmm.means k) (gmm.covariances k) (X i) := by
  unfold compute_component_loglikelihoods
  rw [multivariate_normal_logpdf_eq_log _ _ _ hdet, Real.exp_add,
    Real.exp_log hw, Real.exp_log (gaussianPdf_pos _ _ _ hdet)]

/-- Under positive determinants the entropy estimator takes the finite
closed-form value (scipy entropy of the weights plus the weighted
component terms). -/
lemma compute_gmm_entropy_eq_coe {K D : ℕ} (M : GMM K D)
    (hdet : ∀ k, 0 < (M.covariances k).det) :
    compute_gmm_entropy M =
      ((scipy_entropy M.weights
        + 1 / 2 * (∑ k, M.weights k * (Real.log (M.covariances k).det
          + (D : ℝ) * (1 + Real.log (2 * Real.pi)))) : ℝ) : EReal) := by
  simp only [compute_gmm_entropy]
  have hterm : ∀ k : Fin K, (M.weights k : EReal) *
      (nplog (M.covariances k).det
        + (((D : ℝ) * (1 + Real.log (2 * Real.pi)) : ℝ) : EReal))
      = ((M.weights k * (Real.log (M.covariances k).det
          + (D : ℝ) * (1 + Real.log (2 * Real.pi))) : ℝ) : EReal) := by
    intro k
    rw [nplog, if_neg (ne_of_gt (hdet k)), ← EReal.coe_add, ← EReal.coe_mul]
  have h1 : (∑ k : Fin K, (M.weights k : EReal) *
      (nplog (M.covariances k).det
        + (((D : ℝ) * (1 + Real.log (2 * Real.pi)) : ℝ) : EReal)))
      = (((∑ k, M.weights k * (Real.log (M.covariances k).det
          + (D : ℝ) * (1 + Real.log (2 * Real.pi)))) : ℝ) : EReal) := by
    rw [ereal_coe_sum]
    exact Finset.sum_congr rfl fun k _ => hterm k
  rw [h1, ← EReal.coe_mul, ← EReal.coe_add]

/-- Invariant of the `argmaxStep` fold: starting from `some b₀` it ends in
`some b` where `b` dominates `b₀` and every scanned index. -/
lemma argmax_fold_spec {n : ℕ} (v : Fin n → ℝ) :
    ∀ (l : List (Fin n)) (b₀ : Fin n), ∃ b : Fin n,
      l.foldl (argmaxStep v) (some b₀) = some b ∧ v b₀ ≤ v b
        ∧ ∀ j ∈ l, v j ≤ v b := by
  intro l
  induction l with
  | nil => exact fun b₀ => ⟨b₀, rfl, le_refl _, by simp⟩
  | cons a t ih =>
    intro b₀
    by_cases h : v b₀ < v a
    · obtain ⟨b, hf, hle, hall⟩ := ih a
      refine ⟨b, ?_, le_trans (le_of_lt h) hle, ?_⟩
      · simpa only [List.foldl_cons, argmaxStep, if_pos h] using hf
      · intro j hj
        rcases List.mem_cons.mp hj with rfl | hj
        · exact hle
        · exact hall j hj
    · obtain ⟨b, hf, hle, hall⟩ := ih b₀
      refine ⟨b, ?_, hle, ?_⟩
      · simpa only [List.foldl_cons, argmaxStep, if_neg h] using hf
      · intro j hj
        rcases List.mem_cons.mp hj with rfl | hj
        · exact le_trans (not_lt.mp h) hle
        · exact hall j hj

/-- Value of `np.argmax` of a nonempty vector is (the value of) an index attaining
the maximum. -/
lemma npArgmax_spec {n : ℕ} (v : Fin n → ℝ) (hn : 0 < n) :
    ∃ b : Fin n, npArgmax v = b.val ∧ ∀ j, v j ≤ v b := by
  have hne : List.finRange n ≠ [] := by
    intro h
    exact absurd (List.finRange_eq_nil.mp h) (by omega)
  obtain ⟨a, t, hat⟩ := List.exists_cons_of_ne_nil hne
  obtain ⟨b, hf, hb0, hall⟩ := argmax_fold_spec v t a
  refine ⟨b, ?_, ?_⟩
  · unfold npArgmax
    rw [hat, List.foldl_cons]
    have hstep : argmaxStep v none a = some a := rfl
    rw [hstep, hf]
    rfl
  · intro j
    have hj : j ∈ List.finRange n := List.mem_finRange j
    rw [hat] at hj
    rcases List.mem_cons.mp hj with rfl | hj
    · exact hb0
    · exact hall j hj

/-- When every fit in the remaining sweep succeeds, the loop appends one
record per candidate, in sweep order. -/
lemma finetuneGo_ok {D N : ℕ} {E : Type}
    (fit : (n : ℕ) → Except E (FittedAt D n)) (data : Fin N → Fin D → ℝ)
    (F : (n : ℕ) → FittedAt D n) :
    ∀ (l : List ℕ) (acc : SweepResult), (∀ n ∈ l, fit n = .ok (F n)) →
      finetuneGo fit data l acc = .ok
        { aic := acc.aic ++ l.map fun n => (F n).aic
          bic := acc.bic ++ l.map fun n => (F n).bic
          n_components := acc.n_components ++ l
          loglikelihood := acc.loglikelihood ++ l.map fun n =>
            (compute_component_contributions (F n).model data).2
          entropy := acc.entropy ++ l.map fun n =>
            compute_gmm_entropy (F n).model } := by
  intro l
  induction l with
  | nil => intro acc h; simp [finetuneGo]
  | cons a t ih =>
    intro acc h
    have ha : fit a = .ok (F a) := h a (List.mem_cons_self a t)
    rw [finetuneGo, ha]
    dsimp only
    rw [ih _ (fun n hn => h n (List.mem_cons_of_mem _ hn))]
    simp [List.append_assoc]

/-- If some candidate's fit raises while all earlier candidates succeed,
the loop propagates that error. -/
lemma finetuneGo_error {D N : ℕ} {E : Type}
    (fit : (n : ℕ) → Except E (FittedAt D n)) (data : Fin N → Fin D → ℝ)
    (e : E) :
    ∀ (l : List ℕ), l.Pairwise (fun a b => a < b) →
      ∀ n ∈ l, fit n = .error e →
        (∀ m ∈ l, m < n → ∃ r, fit m = .ok r) →
        ∀ acc, finetuneGo fit data l acc = .error e := by
  intro l
  induction l with
  | nil => intro _ n hn; simp at hn
  | cons a t ih =>
    intro hpw n hn herr hok acc
    rcases List.mem_cons.mp hn with rfl | hnt
    · rw [finetuneGo, herr]
    · have hlt : a < n := (List.pairwise_cons.mp hpw).1 n hnt
      obtain ⟨r, hr⟩ := hok a (List.mem_cons_self a t) hlt
      rw [finetuneGo, hr]
      exact ih (List.pairwise_cons.mp hpw).2 n hnt herr
        (fun m hm hmlt => hok m (List.mem_cons_of_mem _ hm) hmlt) _

/-! ## Concrete instances used by the witnesses -/

/-- A one-component, one-feature mixture with unit weight and unit
covariance. -/
def gmmUnit : GMM 1 1 := ⟨fun _ => 1, fun _ _ => 0, fun _ => 1⟩

/-- A one-component, one-feature mixture whose covariance is singular. -/
def gmmSing : GMM 1 1 := ⟨fun _ => 1, fun _ _ => 0, fun _ => 0⟩

/-- A single one-dimensional observation at the origin. -/
def Xunit : Fin 1 → Fin 1 → ℝ := fun _ _ => 0

/-- A fit oracle that succeeds at every component count. -/
def FOk : (n : ℕ) → FittedAt 1 n :=
  fun _ => ⟨⟨fun _ => 1, fun _ _ => 0, fun _ => 1⟩, 0, 0⟩

/-- The `Except`-wrapped all-success oracle. -/
def fitOk : (n : ℕ) → Except ℕ (FittedAt 1 n) := fun n => .ok (FOk n)

/-- A fit oracle that raises (error code 7) at every component count. -/
def fitFail : (n : ℕ) → Except ℕ (FittedAt 1 n) := fun _ => .error 7

/-- A plain (non-fallible) fit oracle for the finalizer. -/
def fitPlain : (n : ℕ) → GMM n 1 := fun _ => ⟨fun _ => 1, fun _ _ => 0, fun _ => 1⟩

/-- Two one-dimensional observations `0` and `2` (column mean 1,
column variance 1). -/
def X2 : Fin 2 → Fin 1 → ℝ := fun i _ => if i = 0 then 0 else 2

/-! ## Claims -/

/-- C1: for every fitted mixture model (weights summing to 1, covariances
with positive determinant) the entropy estimator returns
`H_categorical(w) + 0.5 * Σ_k w_k (ln det Σ_k + D (1 + ln 2π))`, where
`H_categorical(w) = -Σ_k w_k ln w_k` is the Shannon entropy (natural log)
of the mixing weights. -/
theorem gmm_entropy_closed_form {K D : ℕ} (M : GMM K D)
    (hw : (∑ k, M.weights k) = 1)
    (hdet : ∀ k, 0 < (M.covariances k).det) :
    compute_gmm_entropy M =
      ((-(∑ k, M.weights k * Real.log (M.weights k))
        + 1 / 2 * (∑ k, M.weights k * (Real.log (M.covariances k).det
          + (D : ℝ) * (1 + Real.log (2 * Real.pi)))) : ℝ) : EReal) := by
  rw [compute_gmm_entropy_eq_coe M hdet]
  have hse : scipy_entropy M.weights
      = -(∑ k, M.weights k * Real.log (M.weights k)) := by
    unfold scipy_entropy
    rw [hw]
    simp
  rw [hse]

/-- Witness for C1: the one-component unit-covariance model. -/
theorem gmm_entropy_closed_form_witness :
    compute_gmm_entropy gmmUnit =
      ((-(∑ k, gmmUnit.weights k * Real.log (gmmUnit.weights k))
        + 1 / 2 * (∑ k, gmmUnit.weights k *
          (Real.log (gmmUnit.covariances k).det
            + ((1 : ℕ) : ℝ) * (1 + Real.log (2 * Real.pi)))) : ℝ) : EReal) :=
  gmm_entropy_closed_form gmmUnit (by simp [gmmUnit])
    (fun k => by norm_num [gmmUnit])

/-- C2: every entry `(i,k)` of the per-component log-likelihood matrix is
`ln w_k` plus the log of the Gaussian density of observation `i` under
component `k`. -/
theorem component_loglikelihood_entry {K D N : ℕ} (gmm : GMM K D)
    (X : Fin N → Fin D → ℝ) (i : Fin N) (k : Fin K)
    (hdet : 0 < (gmm.covariances k).det) :
    compute_component_loglikelihoods gmm X i k =
      Real.log (gmm.weights k)
        + Real.log (gaussianPdf (gmm.means k) (gmm.covariances k) (X i)) := by
  unfold compute_component_loglikelihoods
  rw [multivariate_normal_logpdf_eq_log _ _ _ hdet]

/-- Witness for C2: the one-component unit-covariance model at the
origin. -/
theorem component_loglikelihood_entry_witness :
    compute_component_loglikelihoods gmmUnit Xunit 0 0 =
      Real.log (gmmUnit.weights 0)
        + Real.log (gaussianPdf (gmmUnit.means 0) (gmmUnit.covariances 0)
            (Xunit 0)) :=
  component_loglikelihood_entry gmmUnit Xunit 0 0 (by norm_num [gmmUnit])

/-- C3: the total log-likelihood of observation `i` is the row-wise
log-sum-exp of the per-component matrix, and this equals exactly the log of
the sum of exponentials of the row — that is, `ln Σ_k w_k f_k(x_i)`. -/
theorem total_loglikelihood_exact {K D N : ℕ} (gmm : GMM K D)
    (X : Fin N → Fin D → ℝ) (i : Fin N) (hK : 0 < K)
    (hw : ∀ k, 0 < gmm.weights k)
    (hdet : ∀ k, 0 < (gmm.covariances k).det) :
    compute_total_loglikelihood gmm X i =
      Real.log (∑ k, Real.exp (compute_component_loglikelihoods gmm X i k))
    ∧ compute_total_loglikelihood gmm X i =
      Real.log (∑ k, gmm.weights k *
        gaussianPdf (gmm.means k) (gmm.covariances k) (X i)) := by
  have h1 : compute_total_loglikelihood gmm X i =
      Real.log (∑ k, Real.exp (compute_component_loglikelihoods gmm X i k)) := by
    simp only [compute_total_loglikelihood]
    exact logsumexp_eq hK _
  refine ⟨h1, ?_⟩
  rw [h1]
  congr 1
  exact Finset.sum_congr rfl fun k _ =>
    exp_component_loglikelihood gmm X i k (hw k) (hdet k)

/-- Witness for C3: the one-component unit-covariance model at the
origin. -/
theorem total_loglikelihood_exact_witness :
    compute_total_loglikelihood gmmUnit Xunit 0 =
      Real.log (∑ k, Real.exp (compute_component_loglikelihoods gmmUnit Xunit 0 k))
    ∧ compute_total_loglikelihood gmmUnit Xunit 0 =
      Real.log (∑ k, gmmUnit.weights k *
        gaussianPdf (gmmUnit.means k) (gmmUnit.covariances k) (Xunit 0)) :=
  total_loglikelihood_exact gmmUnit Xunit 0 (by norm_num)
    (fun k => by norm_num [gmmUnit]) (fun k => by norm_num [gmmUnit])

/-- C6: with strictly positive weights, a singular component covariance
(`det = 0`) makes the entropy estimator return `-inf` (the `⊥` sentinel of
`EReal`), while all-positive determinants give a finite value. -/
theorem gmm_entropy_singular_or_finite {K D : ℕ} (M : GMM K D)
    (hw : ∀ k, 0 < M.weights k) :
    ((∃ k, (M.covariances k).det = 0) → compute_gmm_entropy M = ⊥)
    ∧ ((∀ k, 0 < (M.covariances k).det) →
        compute_gmm_entropy M ≠ ⊥ ∧ compute_gmm_entropy M ≠ ⊤) := by
  constructor
  · rintro ⟨k0, hk0⟩
    simp only [compute_gmm_entropy]
    have hnplog : nplog (0 : ℝ) = ⊥ := by
      unfold nplog
      simp
    have hterm : (M.weights k0 : EReal) *
        (nplog (M.covariances k0).det
          + (((D : ℝ) * (1 + Real.log (2 * Real.pi)) : ℝ) : EReal)) = ⊥ := by
      rw [hk0, hnplog, EReal.bot_add, EReal.coe_mul_bot_of_pos (hw k0)]
    have hsum : (∑ k : Fin K, (M.weights k : EReal) *
        (nplog (M.covariances k).det
          + (((D : ℝ) * (1 + Real.log (2 * Real.pi)) : ℝ) : EReal))) = ⊥ :=
      ereal_sum_eq_bot Finset.univ
        (fun k => (M.weights k : EReal) * (nplog (M.covariances k).det
          + (((D : ℝ) * (1 + Real.log (2 * Real.pi)) : ℝ) : EReal)))
        k0 (Finset.mem_univ _) hterm
    rw [hsum, EReal.coe_mul_bot_of_pos (by norm_num : (0 : ℝ) < 1 / 2),
      EReal.add_bot]
  · intro hdet
    rw [compute_gmm_entropy_eq_coe M hdet]
    exact ⟨EReal.coe_ne_bot _, EReal.coe_ne_top _⟩

/-- Witness for C6: the singular one-component model yields `⊥`. -/
theorem gmm_entropy_singular_witness :
    compute_gmm_entropy gmmSing = ⊥ :=
  (gmm_entropy_singular_or_finite gmmSing (fun k => by norm_num [gmmSing])).1
    ⟨0, by simp [gmmSing, Matrix.det_fin_one]⟩

/-- C5: the contribution operation returns the responsibility-weighted
column sums of the per-component matrix, and, independently, the grand
total equal to the sum over observations of the row-wise log-sum-exp. -/
theorem component_contributions_spec {K D N : ℕ} (gmm : GMM K D)
    (X : Fin N → Fin D → ℝ) (hK : 0 < K) :
    (∀ k, (compute_component_contributions gmm X).1 k =
      ∑ i, predict_proba gmm X i k * compute_component_loglikelihoods gmm X i k)
    ∧ (compute_component_contributions gmm X).2 =
      ∑ i, Real.log (∑ k, Real.exp (compute_component_loglikelihoods gmm X i k)) := by
  constructor
  · intro k
    rfl
  · simp only [compute_component_contributions]
    exact Finset.sum_congr rfl fun i _ => logsumexp_eq hK _

/-- Witness for C5: the one-component unit-covariance model. -/
theorem component_contributions_spec_witness :
    (compute_component_contributions gmmUnit Xunit).1 0 =
      (∑ i, predict_proba gmmUnit Xunit i 0 *
        compute_component_loglikelihoods gmmUnit Xunit i 0)
    ∧ (compute_component_contributions gmmUnit Xunit).2 =
      (∑ i, Real.log (∑ k, Real.exp
        (compute_component_loglikelihoods gmmUnit Xunit i k))) :=
  ⟨(component_contributions_spec gmmUnit Xunit (by norm_num)).1 0,
    (component_contributions_spec gmmUnit Xunit (by norm_num)).2⟩

/-- C10: the grand-total scalar of the contribution operation equals the
sum over observations of the standalone total-log-likelihood values. -/
theorem contributions_total_eq_sum_rowtotals {K D N : ℕ} (gmm : GMM K D)
    (X : Fin N → Fin D → ℝ) :
    (compute_component_contributions gmm X).2 =
      ∑ i, compute_total_loglikelihood gmm X i := rfl

/-- C7: the finalizer returns one label per observation in `[0, K-1]`,
each maximizing the posterior responsibility, together with the fitted
model. -/
theorem build_model_labels_argmax {D N : ℕ} (fit : (n : ℕ) → GMM n D)
    (K : ℕ) (X : Fin N → Fin D → ℝ) (hK : 0 < K) :
    (∀ i, (build_model_and_fit fit K X).1 i < K
      ∧ ∃ b : Fin K, (build_model_and_fit fit K X).1 i = b.val
        ∧ ∀ j : Fin K, predict_proba (fit K) X i j ≤ predict_proba (fit K) X i b)
    ∧ (build_model_and_fit fit K X).2 = fit K := by
  constructor
  · intro i
    obtain ⟨b, hb, hmax⟩ := npArgmax_spec
      (fun k => compute_component_loglikelihoods (fit K) X i k) hK
    have hlab : (build_model_and_fit fit K X).1 i = b.val := hb
    refine ⟨?_, b, hlab, ?_⟩
    · rw [hlab]
      exact b.isLt
    · intro j
      simp only [predict_proba]
      exact Real.exp_le_exp.mpr (sub_le_sub_right (hmax j) _)
  · rfl

/-- Witness for C7: finalizing at one component. -/
theorem build_model_labels_argmax_witness :
    ((build_model_and_fit fitPlain 1 Xunit).1 0 < 1)
    ∧ (build_model_and_fit fitPlain 1 Xunit).2 = fitPlain 1 :=
  ⟨((build_model_labels_argmax fitPlain 1 Xunit (by norm_num)).1 0).1,
    (build_model_labels_argmax fitPlain 1 Xunit (by norm_num)).2⟩

/-- C4: when all nine fits succeed, the sweep returns exactly nine records
keyed by aic, bic, n_components, log-likelihood and entropy, in strictly
ascending candidate order `K = 1, ..., 9`, each record holding that
candidate's statistics. -/
theorem finetune_model_sweep {D N : ℕ} {E : Type}
    (fit : (n : ℕ) → Except E (FittedAt D n)) (data : Fin N → Fin D → ℝ)
    (F : (n : ℕ) → FittedAt D n)
    (hfit : ∀ n ∈ List.range' 1 9, fit n = .ok (F n)) :
    finetune_model fit data = .ok
      { aic := (List.range' 1 9).map fun n => (F n).aic
        bic := (List.range' 1 9).map fun n => (F n).bic
        n_components := List.range' 1 9
        loglikelihood := (List.range' 1 9).map fun n =>
          (compute_component_contributions (F n).model data).2
        entropy := (List.range' 1 9).map fun n =>
          compute_gmm_entropy (F n).model }
    ∧ List.range' 1 9 = [1, 2, 3, 4, 5, 6, 7, 8, 9]
    ∧ List.Chain' (fun a b => a < b) (List.range' 1 9)
    ∧ (List.range' 1 9).length = 9 := by
  refine ⟨?_, by decide, List.chain'_iff_pairwise.mpr (by decide), by decide⟩
  have h := finetuneGo_ok fit data F (List.range' 1 9)
    ⟨[], [], [], [], []⟩ hfit
  simpa [finetune_model] using h

/-- Witness for C4: the all-success oracle. -/
theorem finetune_model_sweep_witness :
    finetune_model fitOk Xunit = .ok
      { aic := (List.range' 1 9).map fun n => (FOk n).aic
        bic := (List.range' 1 9).map fun n => (FOk n).bic
        n_components := List.range' 1 9
        loglikelihood := (List.range' 1 9).map fun n =>
          (compute_component_contributions (FOk n).model Xunit).2
        entropy := (List.range' 1 9).map fun n =>
          compute_gmm_entropy (FOk n).model } :=
  (finetune_model_sweep fitOk Xunit FOk (fun _ _ => rfl)).1

/-- C9: if fitting raises at some candidate `K` of the sweep (all earlier
candidates succeeding), the whole sweep aborts with that error and no
partial table is returned. -/
theorem finetune_model_failfast {D N : ℕ} {E : Type}
    (fit : (n : ℕ) → Except E (FittedAt D n)) (data : Fin N → Fin D → ℝ)
    (e : E) (n : ℕ) (hn : n ∈ List.range' 1 9) (herr : fit n = .error e)
    (hok : ∀ m ∈ List.range' 1 9, m < n → ∃ r, fit m = .ok r) :
    finetune_model fit data = .error e :=
  finetuneGo_error fit data e (List.range' 1 9) (by decide) n hn herr hok _

/-- Witness for C9: an oracle failing at the first candidate. -/
theorem finetune_model_failfast_witness :
    finetune_model fitFail Xunit = .error 7 :=
  finetune_model_failfast fitFail Xunit 7 1 (by decide) rfl
    (by
      intro m hm hlt
      have h9 : List.range' 1 9 = [1, 2, 3, 4, 5, 6, 7, 8, 9] := by decide
      rw [h9] at hm
      exfalso
      fin_cases hm <;> omega)

/-- Standardizing a column by its own mean and standard deviation gives a
column of mean zero. -/
lemma colMean_standardized {N D : ℕ} (X : Fin N → Fin D → ℝ) (hN : 0 < N)
    (j : Fin D) :
    colMean (fun i j' => (X i j' - colMean X j') / Real.sqrt (colVar X j')) j
      = 0 := by
  have hNne : ((N : ℕ) : ℝ) ≠ 0 := by
    have h0 : (0 : ℝ) < (N : ℝ) := by exact_mod_cast hN
    exact ne_of_gt h0
  have hrfl : colMean
      (fun i j' => (X i j' - colMean X j') / Real.sqrt (colVar X j')) j
      = (∑ i, (X i j - colMean X j) / Real.sqrt (colVar X j)) / (N : ℝ) := rfl
  rw [hrfl, ← Finset.sum_div]
  have hsum0 : (∑ i, (X i j - colMean X j)) = 0 := by
    rw [Finset.sum_sub_distrib, Finset.sum_const, Finset.card_univ,
      Fintype.card_fin, nsmul_eq_mul]
    have hm : colMean X j = (∑ i, X i j) / (N : ℝ) := rfl
    rw [hm]
    field_simp
  rw [hsum0, zero_div, zero_div]

/-- Standardizing a column of nonzero variance by its own mean and
standard deviation gives a column of variance one. -/
lemma colVar_standardized {N D : ℕ} (X : Fin N → Fin D → ℝ) (hN : 0 < N)
    (j : Fin D) (hv : colVar X j ≠ 0) :
    colVar (fun i j' => (X i j' - colMean X j') / Real.sqrt (colVar X j')) j
      = 1 := by
  have hNR : (0 : ℝ) < (N : ℝ) := by exact_mod_cast hN
  have hNne : ((N : ℕ) : ℝ) ≠ 0 := ne_of_gt hNR
  have hvnn : 0 ≤ colVar X j := by
    have h2 : colVar X j = (∑ i, (X i j - colMean X j) ^ 2) / (N : ℝ) := rfl
    rw [h2]
    positivity
  have hvpos : 0 < colVar X j := lt_of_le_of_ne hvnn (Ne.symm hv)
  have hsq : Real.sqrt (colVar X j) ^ 2 = colVar X j := Real.sq_sqrt hvnn
  have hm0 := colMean_standardized X hN j
  have hrfl : colVar
      (fun i j' => (X i j' - colMean X j') / Real.sqrt (colVar X j')) j
      = (∑ i, ((X i j - colMean X j) / Real.sqrt (colVar X j)
          - colMean (fun i j' =>
              (X i j' - colMean X j') / Real.sqrt (colVar X j')) j) ^ 2)
        / (N : ℝ) := rfl
  rw [hrfl, hm0]
  simp only [sub_zero]
  have hterm : ∀ i : Fin N,
      ((X i j - colMean X j) / Real.sqrt (colVar X j)) ^ 2
        = (X i j - colMean X j) ^ 2 / colVar X j := by
    intro i
    rw [div_pow, hsq]
  rw [Finset.sum_congr rfl fun i _ => hterm i, ← Finset.sum_div]
  have hvs : (∑ i, (X i j - colMean X j) ^ 2) = colVar X j * (N : ℝ) := by
    have h2 : colVar X j = (∑ i, (X i j - colMean X j) ^ 2) / (N : ℝ) := rfl
    rw [h2]
    field_simp
  rw [hvs, mul_comm, mul_div_assoc, div_self hv, mul_one, div_self hNne]

/-- C8: the preprocessor fails on a zero-variance column, and otherwise
returns the same-shape matrix standardized with the matrix's own
statistics, whose columns have zero mean and unit variance. -/
theorem fit_transform_spec {N D : ℕ} (X : Fin N → Fin D → ℝ) (hN : 0 < N)
    (j : Fin D) :
    (colVar X j = 0 → fit_transform X = none)
    ∧ ((∀ j', colVar X j' ≠ 0) →
        fit_transform X = some (fun i j' =>
          (X i j' - colMean X j') / Real.sqrt (colVar X j'))
        ∧ colMean (fun i j' =>
            (X i j' - colMean X j') / Real.sqrt (colVar X j')) j = 0
        ∧ colVar (fun i j' =>
            (X i j' - colMean X j') / Real.sqrt (colVar X j')) j = 1) := by
  constructor
  · intro h0
    unfold fit_transform
    rw [if_pos ⟨j, h0⟩]
  · intro hvar
    have hnot : ¬∃ j', colVar X j' = 0 := by
      rintro ⟨j', hj'⟩
      exact hvar j' hj'
    refine ⟨?_, colMean_standardized X hN j, colVar_standardized X hN j (hvar j)⟩
    unfold fit_transform
    rw [if_neg hnot]

/-- Witness for C8: two observations `0` and `2` in one column. -/
theorem fit_transform_spec_witness :
    fit_transform X2 = some (fun i j' =>
      (X2 i j' - colMean X2 j') / Real.sqrt (colVar X2 j'))
    ∧ colMean (fun i j' =>
        (X2 i j' - colMean X2 j') / Real.sqrt (colVar X2 j')) 0 = 0
    ∧ colVar (fun i j' =>
        (X2 i j' - colMean X2 j') / Real.sqrt (colVar X2 j')) 0 = 1 :=
  (fit_transform_spec X2 (by norm_num) 0).2 (by
    intro j'
    have h1 : colMean X2 j' = 1 := by
      rw [show colMean X2 j' = (∑ i, X2 i j') / ((2 : ℕ) : ℝ) from rfl,
        Fin.sum_univ_two]
      norm_num [X2]
    have h2 : colVar X2 j' = 1 := by
      rw [show colVar X2 j'
          = (∑ i, (X2 i j' - colMean X2 j') ^ 2) / ((2 : ℕ) : ℝ) from rfl,
        Fin.sum_univ_two, h1]
      norm_num [X2]
    rw [h2]
    norm_num)

end

